import Mathlib

/-!
Verification of the `lined` package (interactive line-input engine, Go).

This file embeds the second (current) version of `input.go` shallowly:

* Bytes are `Nat` values; Go strings and byte slices are `List Nat`.
* Go `int` variables that can go negative (`offset`, `pick`, `newline`,
  geometry fields) are `Int`; Go's truncated `%` and `/` are `Int.tmod`
  and `Int.tdiv`.
* Terminal output produced with `fmt.Print` is accumulated in an output
  byte list.  Terminal-environment effects (raw mode, `term.GetSize`, the
  `ESC[6n` probe emitted only on a real terminal) are environment I/O:
  the model takes the geometry fields (`col`, `atR`, `atC`) as `Reader`
  state, exactly the fields the Go code refreshes from the environment.
* `os.Stdin.Read` events are modelled as a list of chunks, each a pair of
  the bytes delivered and the accompanying error (`n`, `err` in Go).
  The Go read buffer `p` is a fixed 20-byte array, so one Go read
  delivers at most `20 - from` bytes; the model lets one event carry any
  number of bytes (all inputs examined here fit in one Go read).
* Go runtime panics (slice index out of range, division by zero) are a
  distinguished `crash` outcome; every slicing or indexing spot where the
  Go code can panic is guarded in the model and mapped to `crash`.
* `bytes.Runes` decodes UTF-8; the spec assumes one display column per
  decoded character and every input considered here is ASCII, where the
  rune sequence coincides with the byte sequence, so the redraw walks the
  byte list directly.
-/

namespace Lined

/-- `begins s pre` is Go's `bytes.HasPrefix(s, pre)`: `s` starts with `pre`. -/
def begins : List Nat → List Nat → Bool
  | _, [] => true
  | [], _ :: _ => false
  | a :: as, c :: cs => decide (a = c) && begins as cs

/-- Decimal ASCII digits of a natural number, as printed by `fmt.Printf("%d", n)`. -/
def decDigits (n : Nat) : List Nat :=
  (Nat.toDigits 10 n).map Char.toNat

/-- Errors surfaced by the engine: `ErrEOF`, `ErrTerminated`, and
underlying-stream read failures (tagged by a code so distinct stream
errors stay distinct). -/
inductive GoErr where
  | eof
  | terminated
  | stream (code : Nat)
deriving DecidableEq, Repr

/-- The `Reader` struct: history `h`, pending buffer `unread`, cursor
`offset`, screen size `row`/`col`, and last reported cursor position
`atR`/`atC`.  The mutex only serializes calls and has no sequential
content. -/
structure Reader where
  h : List (List Nat)
  unread : List Nat
  offset : Int
  row : Int
  col : Int
  atR : Int
  atC : Int
deriving DecidableEq, Repr

/-- State threaded through one `readString` call: the reader fields plus
the locals `pick` (recall depth), `newline` (index of a buffered
terminator, `-1` if none) and the bytes written to the terminal so far. -/
structure St where
  rd : Reader
  pick : Int
  newline : Int
  out : List Nat
deriving DecidableEq, Repr

/-- Result of one table handler `fn`, mirroring its Go signature
`func(s string) ([]byte, error)`: `ok x st` is a `(x, nil)` return with
the mutated state, `err ret e st` is a non-nil error return, and `crash`
is a Go runtime panic. -/
inductive HRes where
  | ok (x : Option (List Nat)) (st : St)
  | err (ret : List Nat) (e : GoErr) (st : St)
  | crash
deriving DecidableEq, Repr

/-- Handler for `\004` / `ESC[3~` (delete next): at end of buffer return
`(r.unread, ErrEOF)`; otherwise remove the byte at the cursor. -/
def deleteNextFn (_echo : Bool) (st : St) : HRes :=
  if st.rd.offset = (st.rd.unread.length : Int) then
    .err st.rd.unread .eof st
  else if 0 ≤ st.rd.offset ∧ st.rd.offset < (st.rd.unread.length : Int) then
    .ok none { st with rd := { st.rd with
      unread := st.rd.unread.take st.rd.offset.toNat ++
                st.rd.unread.drop (st.rd.offset.toNat + 1) } }
  else .crash

/-- Handler for `\177` / `\010` (delete previous): if the cursor is past
the start, step back one and remove that byte. -/
def deletePrevFn (_echo : Bool) (st : St) : HRes :=
  if 0 < st.rd.offset then
    if st.rd.offset - 1 < (st.rd.unread.length : Int) then
      .ok none { st with rd := { st.rd with
        offset := st.rd.offset - 1,
        unread := st.rd.unread.take (st.rd.offset - 1).toNat ++
                  st.rd.unread.drop ((st.rd.offset - 1).toNat + 1) } }
    else .crash
  else .ok none st

/-- Handler for `\001` / `ESC[H` (start of line). -/
def startOfLineFn (_echo : Bool) (st : St) : HRes :=
  .ok none { st with rd := { st.rd with offset := 0 } }

/-- Handler for `\005` / `ESC[4~` / `ESC[F` / `ESC$` (end of line). -/
def endOfLineFn (_echo : Bool) (st : St) : HRes :=
  .ok none { st with rd := { st.rd with offset := (st.rd.unread.length : Int) } }

/-- Handler for `\024` (transpose): swap the two bytes around the cursor,
clamped at the buffer edges; the cursor advances unless it was at the end. -/
def transposeFn (_echo : Bool) (st : St) : HRes :=
  let c : Int :=
    if st.rd.offset = (st.rd.unread.length : Int) then st.rd.offset - 1
    else st.rd.offset
  if 0 < c then
    if c < (st.rd.unread.length : Int) then
      let cn := c.toNat
      let u := st.rd.unread
      let u2 := (u.set cn (u.getD (cn - 1) 0)).set (cn - 1) (u.getD cn 0)
      .ok none { st with rd := { st.rd with
        unread := u2,
        offset := if c = st.rd.offset then st.rd.offset + 1 else st.rd.offset } }
    else .crash
  else .ok none st

/-- Handler for `ESC[A` (up arrow, recall older): in echoed mode, when
more history exists below the current depth, replace the buffer with the
next-older entry (terminator stripped), cursor to end, and deepen `pick`. -/
def upArrowFn (echo : Bool) (st : St) : HRes :=
  if echo ∧ st.pick < (st.rd.h.length : Int) then
    if 0 ≤ st.pick then
      let old := st.rd.h.getD (st.rd.h.length - 1 - st.pick.toNat) []
      if old.length = 0 then .crash
      else
        let d := old.take (old.length - 1)
        .ok none { st with
          rd := { st.rd with offset := (d.length : Int), unread := d },
          pick := st.pick + 1 }
    else .crash
  else .ok none st

/-- Handler for `ESC[B` (down arrow, recall newer): in echoed mode,
shallow the recall depth; going past the newest recalled entry clears the
buffer to empty and resets the depth. -/
def downArrowFn (echo : Bool) (st : St) : HRes :=
  if !echo then .ok none st
  else
    let dPick := st.pick - 2
    if 0 ≤ dPick then
      if dPick < (st.rd.h.length : Int) then
        let old := st.rd.h.getD (st.rd.h.length - 1 - dPick.toNat) []
        if old.length = 0 then .crash
        else
          let d := old.take (old.length - 1)
          .ok none { st with
            rd := { st.rd with offset := (d.length : Int), unread := d },
            pick := st.pick - 1 }
      else .crash
    else
      .ok none { st with
        rd := { st.rd with offset := 0, unread := [] },
        pick := 0 }

/-- Handler for `ESC[C` (right arrow): advance, clamped to the length. -/
def rightArrowFn (_echo : Bool) (st : St) : HRes :=
  let o := st.rd.offset + 1
  .ok none { st with rd := { st.rd with
    offset := if (st.rd.unread.length : Int) < o then (st.rd.unread.length : Int) else o } }

/-- Handler for `ESC[D` (left arrow): retreat, clamped to `0`. -/
def leftArrowFn (_echo : Bool) (st : St) : HRes :=
  let o := st.rd.offset - 1
  .ok none { st with rd := { st.rd with offset := if o < 0 then 0 else o } }

/-- Handler for `\r` / `\n` (carriage return): cursor to end, record the
terminator position in `newline`, print `"\r\n"` (even when not echoing),
and hand back `"\n"` to be inserted as the kept byte. -/
def carriageReturnFn (_echo : Bool) (st : St) : HRes :=
  .ok (some [10]) { st with
    rd := { st.rd with offset := (st.rd.unread.length : Int) },
    newline := (st.rd.unread.length : Int),
    out := st.out ++ [13, 10] }

/-- The literal-insert tail of the dispatch loop:
`b = append(b, r.unread[r.offset:]...)`,
`r.unread = append(r.unread[:r.offset], b...)`, `r.offset++`. -/
def literalInsert (b : List Nat) (st : St) : HRes :=
  if 0 ≤ st.rd.offset ∧ st.rd.offset ≤ (st.rd.unread.length : Int) then
    .ok none { st with rd := { st.rd with
      unread := st.rd.unread.take st.rd.offset.toNat ++ b ++
                st.rd.unread.drop st.rd.offset.toNat,
      offset := st.rd.offset + 1 } }
  else .crash

/-- One entry of the `specials` table: candidate byte sequences and the
bound action. -/
structure SpEntry where
  codes : List (List Nat)
  fn : Bool → St → HRes

/-- The `specials` table, in source order.  Byte sequences are the
literal Go escape strings. -/
def specialsTable : List SpEntry :=
  [ ⟨[[4], [27, 91, 51, 126]], deleteNextFn⟩,
    ⟨[[127], [8]], deletePrevFn⟩,
    ⟨[[1], [27, 91, 72]], startOfLineFn⟩,
    ⟨[[5], [27, 91, 52, 126], [27, 91, 70], [27, 36]], endOfLineFn⟩,
    ⟨[[20]], transposeFn⟩,
    ⟨[[27, 91, 65]], upArrowFn⟩,
    ⟨[[27, 91, 66]], downArrowFn⟩,
    ⟨[[27, 91, 67]], rightArrowFn⟩,
    ⟨[[27, 91, 68]], leftArrowFn⟩,
    ⟨[[13], [10]], carriageReturnFn⟩ ]

/-- Scan the codes of one table entry against the unread bytes `p`.
A code longer than `p` contributes to the `prt` flag (a match is still
possible once more bytes arrive); the first complete match runs the
handler and reports the consumed length. -/
def scanCodes (fn : Bool → St → HRes) (echo : Bool) (st : St) (p : List Nat) :
    List (List Nat) → Bool → Option (HRes × Nat) × Bool
  | [], prt => (none, prt)
  | code :: cs, prt =>
    if p.length < code.length then
      scanCodes fn echo st p cs (prt || begins code p)
    else if begins p code then
      (some (fn echo st, code.length), prt)
    else
      scanCodes fn echo st p cs prt

/-- Scan the table entries in priority order; the first full match wins
and stops the scan. -/
def scanSp (echo : Bool) (st : St) (p : List Nat) :
    List SpEntry → Bool → Option (HRes × Nat) × Bool
  | [], prt => (none, prt)
  | e :: es, prt =>
    match scanCodes e.fn echo st p e.codes prt with
    | (some hit, prt2) => (some hit, prt2)
    | (none, prt2) => scanSp echo st p es prt2

/-- ASCII decimal digit test for the cursor-position reply. -/
def isDigitByte (b : Nat) : Bool := 48 ≤ b ∧ b ≤ 57

/-- Maximal leading digit run of a byte list. -/
def takeDigits : List Nat → List Nat × List Nat
  | [] => ([], [])
  | b :: bs =>
    if isDigitByte b then
      let (ds, rest) := takeDigits bs
      (b :: ds, rest)
    else ([], b :: bs)

/-- Decimal value of an ASCII digit run (`strconv.Atoi` on a digit string). -/
def parseDec (ds : List Nat) : Nat :=
  ds.foldl (fun a d => a * 10 + (d - 48)) 0

/-- The anchored pattern `(\d+);(\d+)R` of the asynchronous
cursor-position reply, applied to the bytes after `ESC[`; on success
returns the row, the column and the matched length. -/
def cursorReply (q : List Nat) : Option (Nat × Nat × Nat) :=
  let (ds1, r1) := takeDigits q
  if ds1.isEmpty then none
  else
    match r1 with
    | 59 :: r2 =>
      let (ds2, r3) := takeDigits r2
      if ds2.isEmpty then none
      else
        match r3 with
        | 82 :: _ =>
          some (parseDec ds1, parseDec ds2, ds1.length + 1 + ds2.length + 1)
        | _ => none
    | _ => none

/-- Outcome of the inner dispatch loop (`for from > 0`): `done` leaves
the loop (buffer `p` may keep undecided bytes after a `break`), `ret` is
a `return` out of `readString`, `crash` a runtime panic. -/
inductive InnerOut where
  | done (st : St) (p : List Nat)
  | ret (ret : List Nat) (e : GoErr) (st : St)
  | crash
deriving DecidableEq, Repr

/-- The inner dispatch loop.  The fuel is always called with at least
`p.length`; each iteration consumes at least one byte, so the fuel never
runs out before `p` does. -/
def innerLoop (echo : Bool) : Nat → St → List Nat → InnerOut
  | _, st, [] => .done st []
  | 0, st, p => .done st p
  | fuel + 1, st, p@(b :: ptail) =>
    if b = 3 then
      .ret [] .terminated { st with out := st.out ++ [94, 67] }
    else
      match scanSp echo st p specialsTable false with
      | (some (.err ret e st2, _), _) => .ret ret e st2
      | (some (.crash, _), _) => .crash
      | (some (.ok none st2, clen), _) => innerLoop echo fuel st2 (p.drop clen)
      | (some (.ok (some x) st2, _), prt) =>
        if prt then .done st2 p
        else
          if begins p [27, 91] then
            match cursorReply (p.drop 2) with
            | some (row, col, mlen) =>
              innerLoop echo fuel
                { st2 with rd := { st2.rd with atR := (row : Int), atC := (col : Int) } }
                (p.drop (2 + mlen))
            | none =>
              match literalInsert x st2 with
              | .ok _ st3 => innerLoop echo fuel st3 ptail
              | _ => .crash
          else
            match literalInsert x st2 with
            | .ok _ st3 => innerLoop echo fuel st3 ptail
            | _ => .crash
      | (none, true) => .done st p
      | (none, false) =>
        if begins p [27, 91] then
          match cursorReply (p.drop 2) with
          | some (row, col, mlen) =>
            innerLoop echo fuel
              { st with rd := { st.rd with atR := (row : Int), atC := (col : Int) } }
              (p.drop (2 + mlen))
          | none =>
            match literalInsert [b] st with
            | .ok _ st3 => innerLoop echo fuel st3 ptail
            | _ => .crash
        else
          match literalInsert [b] st with
          | .ok _ st3 => innerLoop echo fuel st3 ptail
          | _ => .crash

/-- `fmt` output of `r.up(n)` (`ESC[nA`, or `ESC[-nB` for negative `n`). -/
def moveUp (n : Int) : List Nat :=
  if 0 < n then [27, 91] ++ decDigits n.toNat ++ [65]
  else if n < 0 then [27, 91] ++ decDigits (-n).toNat ++ [66]
  else []

/-- `fmt` output of `r.left(n)` (`ESC[nD`, or `ESC[-nC` for negative `n`). -/
def moveLeft (n : Int) : List Nat :=
  if 0 < n then [27, 91] ++ decDigits n.toNat ++ [68]
  else if n < 0 then [27, 91] ++ decDigits (-n).toNat ++ [67]
  else []

/-- `ESC[0K`: clear to end of line. -/
def clearEOLBytes : List Nat := [27, 91, 48, 75]

/-- `ESC[2K`: clear the whole line. -/
def clearLineBytes : List Nat := [27, 91, 50, 75]

/-- The redraw character loop: emit each rune, preceded by the
continuation marker `"\\\r\n"` whenever the running column count
`(i + cOffset) mod w` hits zero; also count the inserted line breaks. -/
def emitChars (cOffset w : Int) : List Nat → Int → Int → List Nat × Int
  | [], _, lines => ([], lines)
  | c :: cs, i, lines =>
    if Int.tmod (i + cOffset) w = 0 then
      let (rest, l2) := emitChars cOffset w cs (i + 1) (lines + 1)
      ([92, 13, 10, c] ++ rest, l2)
    else
      let (rest, l2) := emitChars cOffset w cs (i + 1) lines
      (c :: rest, l2)

/-- `n` copies of a byte list, for the stale-row clearing loop. -/
def repBytes : Nat → List Nat → List Nat
  | 0, _ => []
  | n + 1, l => l ++ repBytes n l

/-- The redraw block at the bottom of the read loop (echoed mode, line
still incomplete): return to the logical start of the buffer, re-emit
the content with wrap markers, clear stale trailing rows, and move back
to the cursor.  Returns the grown output plus the new `was`/`wasLines`;
`none` is the division-by-zero panic when the usable width is zero. -/
def redraw (st : St) (was wasLines : Int) : Option (St × Int × Int) :=
  let w := st.rd.col - 1
  if w = 0 then none
  else
    let cOffset := st.rd.atC - 1
    let cD := Int.tmod (was - 1 + cOffset) w
    let cAt := cD + 1 - cOffset
    let cUp := Int.tdiv (was - 1 + cOffset) w
    let out1 := st.out ++ moveUp cUp ++ moveLeft cAt
    let rs := st.rd.unread
    let n := (rs.length : Int)
    let cAt2 := Int.tmod (n - 1 + cOffset) w - Int.tmod (st.rd.offset - 1 + cOffset) w
    let cUp2 := Int.tdiv (n - 1 + cOffset) w - Int.tdiv (st.rd.offset - 1 + cOffset) w
    let (body, lines) := emitChars cOffset w rs 0 0
    let out2 := out1 ++ body ++ clearEOLBytes
    let out3 :=
      if lines < wasLines then
        out2 ++ repBytes (wasLines - lines).toNat (moveUp (-1) ++ clearLineBytes) ++
          moveUp (cUp2 + wasLines - lines)
      else out2
    let out4 := out3 ++ moveUp cUp2 ++ moveLeft cAt2
    some ({ st with out := out4 }, st.rd.offset, lines)

/-- One `os.Stdin.Read` event: the delivered bytes and the accompanying
error (`n`, `err`). -/
abbrev Chunk := List Nat × Option GoErr

/-- Result of one `readString` call: the returned line with the updated
reader and the emitted bytes, an error return, `blocked` when the input
events are exhausted with the line still incomplete (the Go code would
stay blocked in `Read`), or a runtime panic. -/
inductive ReadResult where
  | ok (line : List Nat) (r : Reader) (out : List Nat)
  | fail (ret : List Nat) (e : GoErr) (r : Reader) (out : List Nat)
  | blocked (r : Reader) (out : List Nat)
  | crash
deriving DecidableEq, Repr

/-- The outer `for` loop of `readString`: deliver a completed line when
one is buffered, otherwise take the next read event, run the dispatch
loop and, in echoed mode with the line still incomplete, redraw. -/
def runRead (echo : Bool) : List Chunk → St → List Nat → Int → Int → ReadResult
  | chunks, st, p, was, wasLines =>
    if st.newline ≠ -1 then
      if 0 ≤ st.newline ∧ st.newline + 1 ≤ (st.rd.unread.length : Int) then
        let nl := st.newline.toNat
        let line := st.rd.unread.take (nl + 1)
        .ok line
          { st.rd with
            h := if echo then st.rd.h ++ [line] else st.rd.h,
            unread := st.rd.unread.drop (nl + 1) ++ p,
            offset := 0 }
          st.out
      else .crash
    else
      match chunks with
      | [] => .blocked st.rd st.out
      | (bs, er) :: rest =>
        if bs.isEmpty && er.isSome then
          .fail [] (er.getD (.stream 0)) st.rd st.out
        else
          let p1 := p ++ bs
          match innerLoop echo p1.length st p1 with
          | .crash => .crash
          | .ret ret e st2 => .fail ret e st2.rd st2.out
          | .done st2 p2 =>
            if st2.newline = -1 ∧ echo then
              match redraw st2 was wasLines with
              | none => .crash
              | some (st3, was2, lines2) => runRead echo rest st3 p2 was2 lines2
            else runRead echo rest st2 p2 was wasLines

/-- Index of the first `'\n'` in the buffer (`bytes.IndexByte`), `-1` if none. -/
def idxNewline (l : List Nat) : Int :=
  match l.findIdx? (fun b => b = 10) with
  | some i => (i : Int)
  | none => -1

/-- `readString`: one read operation over the given read events. -/
def readStr (echo : Bool) (r : Reader) (input : List Chunk) : ReadResult :=
  runRead echo input ⟨r, 0, idxNewline r.unread, []⟩ [] 0 0

/-- `ReadString`: echoed read. -/
def ReadStringGo (r : Reader) (input : List Chunk) : ReadResult :=
  readStr true r input

/-- `ReadPassword`: silent read. -/
def ReadPasswordGo (r : Reader) (input : List Chunk) : ReadResult :=
  readStr false r input

/-- `History`: the `n`-th most recent line and the total count.  The
in-bounds access `r.h[m-1-n]` is modelled as `none` exactly when the Go
index is out of range, i.e. when Go panics. -/
def History (h : List (List Nat)) (n : Int) : Option (List Nat × Nat) :=
  let m := h.length
  if (m : Int) < n ∨ n < 0 then some ([], m)
  else if 0 ≤ (m : Int) - 1 - n ∧ (m : Int) - 1 - n < (m : Int) then
    some (h.getD ((m : Int) - 1 - n).toNat [], m)
  else none

/-- The editing operations a read operation can dispatch, named after the
spec's command table plus the literal-insert fallback. -/
inductive EditOp where
  | literal (b : Nat)
  | delNext
  | delPrev
  | jumpStart
  | jumpEnd
  | transpose
  | recallOlder
  | recallNewer
  | curLeft
  | curRight
  | terminate
deriving DecidableEq, Repr

/-- Dispatch one editing operation to the handler the `specials` table
binds it to (the terminator runs its handler and then inserts the
returned `"\n"`, exactly as the dispatch loop does). -/
def applyOp (echo : Bool) (op : EditOp) (st : St) : HRes :=
  match op with
  | .literal b => literalInsert [b] st
  | .delNext => deleteNextFn echo st
  | .delPrev => deletePrevFn echo st
  | .jumpStart => startOfLineFn echo st
  | .jumpEnd => endOfLineFn echo st
  | .transpose => transposeFn echo st
  | .recallOlder => upArrowFn echo st
  | .recallNewer => downArrowFn echo st
  | .curLeft => leftArrowFn echo st
  | .curRight => rightArrowFn echo st
  | .terminate =>
    match carriageReturnFn echo st with
    | .ok (some x) st2 => literalInsert x st2
    | r => r

/-- Run a sequence of editing operations; an error return ends the read
operation (the remaining operations are not dispatched), a panic yields
`none`. -/
def runOps (echo : Bool) : List EditOp → St → Option St
  | [], st => some st
  | op :: ops, st =>
    match applyOp echo op st with
    | .ok _ st2 => runOps echo ops st2
    | .err _ _ st2 => some st2
    | .crash => none

/-- The cursor invariant: `0 ≤ cursorOffset ≤ len(pendingLine)`. -/
def Inv (st : St) : Prop :=
  0 ≤ st.rd.offset ∧ st.rd.offset ≤ (st.rd.unread.length : Int)

/-- Well-formedness of the recall state: every history entry is nonempty
(entries always carry their terminator) and the recall depth is not
negative.  Both hold in every reachable state. -/
def GoodHist (st : St) : Prop :=
  (∀ l ∈ st.rd.h, l ≠ []) ∧ 0 ≤ st.pick

/-- A literal byte: it matches no command-table code and is no
partial code, i.e. it is none of the single-byte codes, not `ESC`
(the lead byte of every multi-byte code) and not the interrupt byte. -/
def IsLiteral (b : Nat) : Prop :=
  b ∉ ([1, 3, 4, 5, 8, 10, 13, 20, 27, 127] : List Nat)

instance : DecidablePred IsLiteral := fun b =>
  inferInstanceAs (Decidable (b ∉ ([1, 3, 4, 5, 8, 10, 13, 20, 27, 127] : List Nat)))

/-- All codes of an entry start with a byte other than `b` (so `b` can
neither match nor open a partial match). -/
def headMiss (b : Nat) (codes : List (List Nat)) : Bool :=
  codes.all fun c =>
    match c with
    | [] => false
    | c0 :: _ => decide (c0 ≠ b)

/-- `headMiss` over a whole table. -/
def tableMiss (b : Nat) (es : List SpEntry) : Bool :=
  es.all fun e => headMiss b e.codes

/-- The reader part preserved by a handler result. -/
def presH (st : St) : HRes → Prop
  | .ok _ s => s.rd.h = st.rd.h
  | .err _ _ s => s.rd.h = st.rd.h
  | .crash => True

/-- The reader delivered by a read result, when it did not panic. -/
def resultReader : ReadResult → Option Reader
  | .ok _ r _ => some r
  | .fail _ _ r _ => some r
  | .blocked r _ => some r
  | .crash => none

section ScanLemmas

theorem begins_cons_ne {a c : Nat} (h : c ≠ a) (as cs : List Nat) :
    begins (a :: as) (c :: cs) = false := by
  simp [begins, h.symm]

theorem scanCodes_skip (fn : Bool → St → HRes) (echo : Bool) (st : St)
    (b : Nat) (rest : List Nat) :
    ∀ (codes : List (List Nat)) (prt : Bool), headMiss b codes = true →
      scanCodes fn echo st (b :: rest) codes prt = (none, prt)
  | [], prt, _ => by simp [scanCodes]
  | code :: cs, prt, hm => by
    have hm1 : headMiss b cs = true := by
      simp only [headMiss, List.all_cons, Bool.and_eq_true] at hm
      exact hm.2
    obtain ⟨c0, ctail, rfl, hne⟩ : ∃ c0 ctail, code = c0 :: ctail ∧ c0 ≠ b := by
      simp only [headMiss, List.all_cons, Bool.and_eq_true] at hm
      match code, hm.1 with
      | c0 :: ctail, h => exact ⟨c0, ctail, rfl, by simpa using h⟩
    rw [scanCodes]
    by_cases hlen : (b :: rest).length < (c0 :: ctail).length
    · rw [if_pos hlen, begins_cons_ne (Ne.symm hne), Bool.or_false]
      exact scanCodes_skip fn echo st b rest cs prt hm1
    · rw [if_neg hlen, begins_cons_ne hne, if_neg (by simp)]
      exact scanCodes_skip fn echo st b rest cs prt hm1

theorem scanSp_skip (echo : Bool) (st : St) (b : Nat) (rest : List Nat) :
    ∀ (es : List SpEntry) (prt : Bool), tableMiss b es = true →
      scanSp echo st (b :: rest) es prt = (none, prt)
  | [], prt, _ => by simp [scanSp]
  | e :: es, prt, hm => by
    simp only [tableMiss, List.all_cons, Bool.and_eq_true] at hm
    rw [scanSp, scanCodes_skip e.fn echo st b rest e.codes prt hm.1]
    exact scanSp_skip echo st b rest es prt (by simp [tableMiss, hm.2])

theorem scanSp_append (echo : Bool) (st : St) (p : List Nat) :
    ∀ (es1 es2 : List SpEntry) (prt : Bool),
      scanSp echo st p (es1 ++ es2) prt =
        match scanSp echo st p es1 prt with
        | (some hit, prt2) => (some hit, prt2)
        | (none, prt2) => scanSp echo st p es2 prt2
  | [], es2, prt => by simp [scanSp]
  | e :: es1, es2, prt => by
    rw [List.cons_append, scanSp, scanSp]
    rcases hsc : scanCodes e.fn echo st p e.codes prt with ⟨o, prt2⟩
    cases o with
    | some hit => simp
    | none => simpa using scanSp_append echo st p es1 es2 prt2

theorem tableMiss_literal {b : Nat} (hb : IsLiteral b) :
    tableMiss b specialsTable = true := by
  simp only [IsLiteral, List.mem_cons, List.not_mem_nil, or_false, not_or] at hb
  obtain ⟨h1, h3, h4, h5, h8, h10, h13, h20, h27, h127⟩ := hb
  simp only [tableMiss, headMiss, specialsTable, List.all_cons, List.all_nil,
    Bool.and_eq_true, decide_eq_true_eq, and_true]
  omega

theorem scanSp_literal (echo : Bool) (st : St) {b : Nat} (rest : List Nat)
    (hb : IsLiteral b) :
    scanSp echo st (b :: rest) specialsTable false = (none, false) :=
  scanSp_skip echo st b rest specialsTable false (tableMiss_literal hb)

theorem scanSp_crlf (echo : Bool) (st : St) {b : Nat} (rest : List Nat)
    (hb : b = 13 ∨ b = 10) :
    scanSp echo st (b :: rest) specialsTable false =
      (some (carriageReturnFn echo st, 1), false) := by
  have hfront :
      specialsTable =
        (specialsTable.take 9) ++ [⟨[[13], [10]], carriageReturnFn⟩] := rfl
  rw [hfront, scanSp_append]
  rcases hb with rfl | rfl
  · rw [scanSp_skip echo st 13 rest (specialsTable.take 9) false (by decide)]
    simp [scanSp, scanCodes, begins]
  · rw [scanSp_skip echo st 10 rest (specialsTable.take 9) false (by decide)]
    simp [scanSp, scanCodes, begins]

theorem scanSp_four (echo : Bool) (st : St) (rest : List Nat) :
    scanSp echo st (4 :: rest) specialsTable false =
      (some (deleteNextFn echo st, 1), false) := by
  simp [scanSp, scanCodes, specialsTable, begins]

end ScanLemmas

section StepLemmas

theorem innerLoop_interrupt (echo : Bool) (fuel : Nat) (st : St) (rest : List Nat) :
    innerLoop echo (fuel + 1) st (3 :: rest) =
      .ret [] .terminated { st with out := st.out ++ [94, 67] } := by
  simp [innerLoop]

theorem innerLoop_literal (echo : Bool) (fuel : Nat) (st : St) {b : Nat}
    (rest : List Nat) (hb : IsLiteral b)
    (h0 : 0 ≤ st.rd.offset) (h1 : st.rd.offset ≤ (st.rd.unread.length : Int)) :
    innerLoop echo (fuel + 1) st (b :: rest) =
      innerLoop echo fuel
        { st with rd := { st.rd with
            unread := st.rd.unread.take st.rd.offset.toNat ++ [b] ++
                      st.rd.unread.drop st.rd.offset.toNat,
            offset := st.rd.offset + 1 } } rest := by
  have hb3 : ¬ b = 3 := fun h => hb (by simp [h])
  have h27 : (27 : Nat) ≠ b := fun h => hb (by simp [h.symm])
  simp only [innerLoop, if_neg hb3, scanSp_literal echo st rest hb]
  rw [begins_cons_ne h27]
  simp only [Bool.false_eq_true, if_false, literalInsert, if_pos (And.intro h0 h1)]

theorem innerLoop_cr (echo : Bool) (fuel : Nat) (st : St) {b : Nat}
    (rest : List Nat) (hb : b = 13 ∨ b = 10) :
    innerLoop echo (fuel + 1) st (b :: rest) =
      innerLoop echo fuel
        { st with
          rd := { st.rd with
            unread := st.rd.unread ++ [10],
            offset := (st.rd.unread.length : Int) + 1 },
          newline := (st.rd.unread.length : Int),
          out := st.out ++ [13, 10] } rest := by
  have hb3 : ¬ b = 3 := by rcases hb with rfl | rfl <;> simp
  have h27 : (27 : Nat) ≠ b := by rcases hb with rfl | rfl <;> simp
  simp only [innerLoop, if_neg hb3, scanSp_crlf echo st rest hb]
  rw [begins_cons_ne h27]
  have hin : 0 ≤ (st.rd.unread.length : Int) ∧
      (st.rd.unread.length : Int) ≤ (st.rd.unread.length : Int) := by
    constructor <;> omega
  simp only [Bool.false_eq_true, if_false, carriageReturnFn, literalInsert]
  simp only [if_pos hin]
  simp [Int.toNat_natCast, List.take_length, List.drop_length]

theorem innerLoop_delNext_eof (echo : Bool) (fuel : Nat) (st : St)
    (rest : List Nat) (h : st.rd.offset = (st.rd.unread.length : Int)) :
    innerLoop echo (fuel + 1) st (4 :: rest) = .ret st.rd.unread .eof st := by
  simp only [innerLoop, scanSp_four echo st rest]
  simp [deleteNextFn, h]

theorem innerLoop_delNext_mid (echo : Bool) (fuel : Nat) (st : St)
    (rest : List Nat) (h0 : 0 ≤ st.rd.offset)
    (h1 : st.rd.offset < (st.rd.unread.length : Int)) :
    innerLoop echo (fuel + 1) st (4 :: rest) =
      innerLoop echo fuel
        { st with rd := { st.rd with
            unread := st.rd.unread.take st.rd.offset.toNat ++
                      st.rd.unread.drop (st.rd.offset.toNat + 1) } } rest := by
  have hne : ¬ st.rd.offset = (st.rd.unread.length : Int) := by omega
  simp only [innerLoop, scanSp_four echo st rest]
  simp [deleteNextFn, hne, h0, h1, And.intro h0 h1]

/-- Processing a run of literal bytes from a state whose cursor sits at
the end of the buffer appends them one by one. -/
theorem innerLoop_literals (echo : Bool) :
    ∀ (bs : List Nat), (∀ b ∈ bs, IsLiteral b) →
    ∀ (st : St) (rest : List Nat),
      st.rd.offset = (st.rd.unread.length : Int) →
      innerLoop echo (bs ++ rest).length st (bs ++ rest) =
        innerLoop echo rest.length
          { st with rd := { st.rd with
              unread := st.rd.unread ++ bs,
              offset := ((st.rd.unread.length + bs.length : Nat) : Int) } } rest
  | [], _, st, rest, hend => by
    simp only [List.nil_append, List.length_nil, List.append_nil, Nat.add_zero, ← hend]
  | b :: bs, hlit, st, rest, hend => by
    have hb : IsLiteral b := hlit b (List.mem_cons_self b bs)
    have h0 : 0 ≤ st.rd.offset := by omega
    have h1 : st.rd.offset ≤ (st.rd.unread.length : Int) := le_of_eq hend
    rw [List.cons_append,
      show (b :: (bs ++ rest)).length = (bs ++ rest).length + 1 from rfl,
      innerLoop_literal echo (bs ++ rest).length st (bs ++ rest) hb h0 h1]
    have hu : st.rd.unread.take st.rd.offset.toNat ++ [b] ++
        st.rd.unread.drop st.rd.offset.toNat = st.rd.unread ++ [b] := by
      rw [hend, Int.toNat_natCast, List.take_length, List.drop_length, List.append_nil]
    rw [hu]
    rw [innerLoop_literals echo bs (fun x hx => hlit x (List.mem_cons_of_mem b hx))
      { st with rd := { st.rd with
          unread := st.rd.unread ++ [b], offset := st.rd.offset + 1 } } rest
      (by simp only [List.length_append, List.length_singleton]; omega)]
    have hst : ({ st with rd := { st.rd with
          unread := (st.rd.unread ++ [b]) ++ bs,
          offset := (((st.rd.unread ++ [b]).length + bs.length : Nat) : Int) } } : St) =
        { st with rd := { st.rd with
          unread := st.rd.unread ++ b :: bs,
          offset := ((st.rd.unread.length + (b :: bs).length : Nat) : Int) } } := by
      simp only [St.mk.injEq, Reader.mk.injEq, List.append_assoc, List.singleton_append,
        List.length_append, List.length_singleton, List.length_cons, List.length_nil,
        and_true, true_and]
      push_cast
      ring
    rw [hst]

end StepLemmas

section RunLemmas

theorem runRead_done (echo : Bool) (chunks : List Chunk) (st : St) (p : List Nat)
    (was wl : Int) (hnl : st.newline ≠ -1)
    (hg : 0 ≤ st.newline ∧ st.newline + 1 ≤ (st.rd.unread.length : Int)) :
    runRead echo chunks st p was wl =
      .ok (st.rd.unread.take (st.newline.toNat + 1))
        { st.rd with
          h := if echo then st.rd.h ++ [st.rd.unread.take (st.newline.toNat + 1)]
               else st.rd.h,
          unread := st.rd.unread.drop (st.newline.toNat + 1) ++ p,
          offset := 0 }
        st.out := by
  rw [runRead.eq_def]
  simp [hnl, hg]

theorem runRead_complete_crash (echo : Bool) (chunks : List Chunk) (st : St)
    (p : List Nat) (was wl : Int) (hnl : st.newline ≠ -1)
    (hg : ¬ (0 ≤ st.newline ∧ st.newline + 1 ≤ (st.rd.unread.length : Int))) :
    runRead echo chunks st p was wl = .crash := by
  rw [runRead.eq_def]
  simp [hnl, hg]

theorem runRead_blocked (echo : Bool) (st : St) (p : List Nat) (was wl : Int)
    (hnl : st.newline = -1) :
    runRead echo [] st p was wl = .blocked st.rd st.out := by
  rw [runRead.eq_def]
  simp [hnl]

theorem runRead_readErr (echo : Bool) (st : St) (p : List Nat) (was wl : Int)
    (rest : List Chunk) (e : GoErr) (hnl : st.newline = -1) :
    runRead echo (([], some e) :: rest) st p was wl = .fail [] e st.rd st.out := by
  rw [runRead.eq_def]
  simp [hnl]

theorem runRead_chunk (echo : Bool) (st : St) (p : List Nat) (was wl : Int)
    (bs : List Nat) (er : Option GoErr) (rest : List Chunk)
    (hnl : st.newline = -1) (hbe : (bs.isEmpty && er.isSome) = false) :
    runRead echo ((bs, er) :: rest) st p was wl =
      match innerLoop echo (p ++ bs).length st (p ++ bs) with
      | .crash => .crash
      | .ret ret e st2 => .fail ret e st2.rd st2.out
      | .done st2 p2 =>
        if st2.newline = -1 ∧ echo then
          match redraw st2 was wl with
          | none => .crash
          | some (st3, was2, lines2) => runRead echo rest st3 p2 was2 lines2
        else runRead echo rest st2 p2 was wl := by
  rw [runRead.eq_def]
  simp only [hnl, ne_eq, neg_neg, not_true_eq_false, if_false, ite_false, hbe,
    Bool.false_eq_true, reduceIte]

/-- A line of literal bytes closed by either terminator byte: the read
returns the bytes plus `"\n"`, appends that line to history exactly when
echoing, and emits only the `"\r\n"` of the terminator handler. -/
theorem readStr_literal_term (echo : Bool) (hs : List (List Nat)) (bs : List Nat)
    (hbs : ∀ b ∈ bs, IsLiteral b) {t : Nat} (ht : t = 13 ∨ t = 10)
    (rowv colv aRv aCv : Int) :
    readStr echo ⟨hs, [], 0, rowv, colv, aRv, aCv⟩ [(bs ++ [t], none)] =
      .ok (bs ++ [10])
        ⟨if echo then hs ++ [bs ++ [10]] else hs, [], 0, rowv, colv, aRv, aCv⟩
        [13, 10] := by
  unfold readStr
  rw [show idxNewline (Reader.mk hs [] 0 rowv colv aRv aCv).unread = -1 from rfl]
  rw [runRead_chunk echo _ [] 0 0 (bs ++ [t]) none [] ?ha ?hb]
  case ha => rfl
  case hb => simp
  rw [List.nil_append]
  rw [innerLoop_literals echo bs hbs _ [t] ?hc]
  case hc => simp
  rw [show ([t] : List Nat).length = 0 + 1 from rfl]
  rw [innerLoop_cr echo 0 _ [] ht]
  simp only [innerLoop, List.nil_append, Nat.zero_add]
  rw [if_neg (by rintro ⟨h1, -⟩; omega)]
  rw [runRead_done echo [] _ [] 0 0 ?hd ?he]
  case hd => simp
  case he =>
    constructor
    · simp
    · simp [List.length_append]
  simp [Int.toNat_natCast, List.take_of_length_le, List.drop_eq_nil_of_le,
    List.length_append]

end RunLemmas

section ClaimHistory

/-- Claim C1: `History n` returns the `n`-th most recent entry with the
total for `0 ≤ n ≤ N-1`, and `("", N)` for out-of-range `n` — except that
at exactly `n = N` the bounds check `m < n` lets the index `m-1-n = -1`
through, so the Go code panics (`none` in the model) instead of
returning `("", N)`. -/
theorem c1_history_bounds (h : List (List Nat)) :
    History h (h.length : Int) = none ∧
    (∀ n : Int, ((h.length : Int) < n ∨ n < 0) → History h n = some ([], h.length)) ∧
    (∀ n : Nat, n < h.length →
      History h (n : Int) = some (h.getD (h.length - 1 - n) [], h.length)) := by
  refine ⟨?_, ?_, ?_⟩
  · unfold History
    rw [if_neg (by omega), if_neg (by omega)]
  · intro n hn
    unfold History
    rw [if_pos hn]
  · intro n hn
    unfold History
    rw [if_neg (by omega), if_pos (by constructor <;> omega)]
    have hidx : ((h.length : Int) - 1 - (n : Int)).toNat = h.length - 1 - n := by omega
    rw [hidx]

theorem c1_history_bounds_witness :
    History [[104, 105, 10]] 1 = none ∧
    History [[104, 105, 10]] 2 = some ([], 1) ∧
    History [[104, 105, 10]] 0 = some ([104, 105, 10], 1) := by
  refine ⟨?_, ?_, ?_⟩
  · simpa using (c1_history_bounds [[104, 105, 10]]).1
  · simpa using (c1_history_bounds [[104, 105, 10]]).2.1 2 (by decide)
  · simpa using (c1_history_bounds [[104, 105, 10]]).2.2 0 (by decide)

end ClaimHistory

section ClaimLiteralLine

/-- Claim C7: feeding literal bytes (matching no command-table entry and
forming no partial code) followed by the terminator returns exactly those
bytes plus the terminator, and an echoed read appends exactly that line
to history. -/
theorem c7_literal_line (echo : Bool) (hs : List (List Nat)) (bs : List Nat)
    (hbs : ∀ b ∈ bs, IsLiteral b) (rowv colv aRv aCv : Int) :
    readStr echo ⟨hs, [], 0, rowv, colv, aRv, aCv⟩ [(bs ++ [10], none)] =
      .ok (bs ++ [10])
        ⟨if echo then hs ++ [bs ++ [10]] else hs, [], 0, rowv, colv, aRv, aCv⟩
        [13, 10] :=
  readStr_literal_term echo hs bs hbs (Or.inr rfl) rowv colv aRv aCv

theorem c7_literal_line_witness :
    readStr true ⟨[], [], 0, 0, 0, 0, 0⟩ [([104, 105, 10], none)] =
      .ok [104, 105, 10] ⟨[[104, 105, 10]], [], 0, 0, 0, 0, 0⟩ [13, 10] := by
  simpa using c7_literal_line true [] [104, 105] (by decide) 0 0 0 0

/-- Claim C10 (amended): the carriage-return byte dispatches exactly as
the line-feed byte (same handler, same consumption), and a line of
literal bytes closed by `0x0D` returns and stores the bytes plus a
single `"\n"` terminator — a `0x0D` never appears as terminator.  (When a
history-recall follows the terminator inside the same chunk, the recall
replaces the buffer under the already-recorded terminator index, and the
delivered line can lack the terminator; see the counterexample.) -/
theorem c10_cr_equals_lf (echo : Bool) :
    (∀ (fuel : Nat) (st : St) (rest : List Nat),
      innerLoop echo (fuel + 1) st (13 :: rest) =
        innerLoop echo (fuel + 1) st (10 :: rest)) ∧
    (∀ (hs : List (List Nat)) (bs : List Nat), (∀ b ∈ bs, IsLiteral b) →
      ∀ (rowv colv aRv aCv : Int),
        readStr echo ⟨hs, [], 0, rowv, colv, aRv, aCv⟩ [(bs ++ [13], none)] =
          readStr echo ⟨hs, [], 0, rowv, colv, aRv, aCv⟩ [(bs ++ [10], none)] ∧
        readStr echo ⟨hs, [], 0, rowv, colv, aRv, aCv⟩ [(bs ++ [13], none)] =
          .ok (bs ++ [10])
            ⟨if echo then hs ++ [bs ++ [10]] else hs, [], 0, rowv, colv, aRv, aCv⟩
            [13, 10] ∧
        (bs ++ [10]).getLast? = some 10) := by
  constructor
  · intro fuel st rest
    rw [innerLoop_cr echo fuel st rest (Or.inl rfl),
      innerLoop_cr echo fuel st rest (Or.inr rfl)]
  · intro hs bs hbs rowv colv aRv aCv
    refine ⟨?_, ?_, ?_⟩
    · rw [readStr_literal_term echo hs bs hbs (Or.inl rfl) rowv colv aRv aCv,
        readStr_literal_term echo hs bs hbs (Or.inr rfl) rowv colv aRv aCv]
    · exact readStr_literal_term echo hs bs hbs (Or.inl rfl) rowv colv aRv aCv
    · simp

theorem c10_cr_equals_lf_witness :
    readStr true ⟨[], [], 0, 0, 0, 0, 0⟩ [([104, 13], none)] =
      .ok [104, 10] ⟨[[104, 10]], [], 0, 0, 0, 0, 0⟩ [13, 10] := by
  simpa using ((c10_cr_equals_lf true).2 [] [104] (by decide) 0 0 0 0).2.1

/-- Claim C10 counterexample: with history `["ab\n"]`, the chunk
`"\r" ESC[A` completes a line by carriage return but the recall that
follows replaces the buffer before the completion is collected: the read
returns `"a"` — no `"\n"` terminator — and stores `"a"` in history. -/
theorem c10_counterexample :
    readStr true ⟨[[97, 98, 10]], [], 0, 0, 0, 0, 0⟩ [([13, 27, 91, 65], none)] =
      .ok [97] ⟨[[97, 98, 10], [97]], [98], 0, 0, 0, 0, 0⟩ [13, 10] ∧
    ([97] : List Nat).getLast? ≠ some 10 := by
  exact ⟨rfl, by decide⟩

end ClaimLiteralLine

section ClaimRedraw

/-- Claim C8 (amended): with terminal width 10 and prompt column offset 0
(`atC = 1`), an echoed read of `"abcdefghijkl\n"` delivered by one read
event returns `"abcdefghijkl\n"` — but the emitted output contains no
continuation break at all: the redraw block runs only after a read event
that leaves the line incomplete, and a single event carrying the whole
line never triggers it. -/
theorem c8_single_chunk :
    readStr true ⟨[], [], 0, 0, 10, 1, 1⟩
        [([97, 98, 99, 100, 101, 102, 103, 104, 105, 106, 107, 108, 10], none)] =
      .ok [97, 98, 99, 100, 101, 102, 103, 104, 105, 106, 107, 108, 10]
        ⟨[[97, 98, 99, 100, 101, 102, 103, 104, 105, 106, 107, 108, 10]],
          [], 0, 0, 10, 1, 1⟩ [13, 10] ∧
    ([13, 10] : List Nat).count 92 = 0 := by
  constructor
  · simpa using readStr_literal_term true []
      [97, 98, 99, 100, 101, 102, 103, 104, 105, 106, 107, 108] (by decide)
      (Or.inr rfl) 0 10 1 1
  · decide

/-- Claim C8 counterexample: the same run emits an output whose number of
continuation markers (`'\\'`, byte 92) is not one — it is zero. -/
theorem c8_counterexample :
    readStr true ⟨[], [], 0, 0, 10, 1, 1⟩
        [([97, 98, 99, 100, 101, 102, 103, 104, 105, 106, 107, 108, 10], none)] =
      .ok [97, 98, 99, 100, 101, 102, 103, 104, 105, 106, 107, 108, 10]
        ⟨[[97, 98, 99, 100, 101, 102, 103, 104, 105, 106, 107, 108, 10]],
          [], 0, 0, 10, 1, 1⟩ [13, 10] ∧
    ([13, 10] : List Nat).count 92 ≠ 1 := by
  constructor
  · simpa using readStr_literal_term true []
      [97, 98, 99, 100, 101, 102, 103, 104, 105, 106, 107, 108] (by decide)
      (Or.inr rfl) 0 10 1 1
  · decide

end ClaimRedraw

section ClaimInterrupt

/-- Claim C5 (amended): whenever the interrupt byte `0x03` is the next
unconsumed byte, the read returns immediately with the interruption
error and an empty string, echoing `"^C"`, regardless of command-table
position and of the buffer content — but the partially-entered content
is retained in the session (`r.unread` is untouched), not discarded; it
resurfaces in the next read operation. -/
theorem c5_interrupt_amended (echo : Bool) (st : St) (rest : List Nat) (fuel : Nat)
    (chunks : List Chunk) (was wl : Int) (hnl : st.newline = -1) :
    innerLoop echo (fuel + 1) st (3 :: rest) =
      .ret [] .terminated { st with out := st.out ++ [94, 67] } ∧
    runRead echo ((3 :: rest, none) :: chunks) st [] was wl =
      .fail [] .terminated st.rd (st.out ++ [94, 67]) := by
  constructor
  · exact innerLoop_interrupt echo fuel st rest
  · rw [runRead_chunk echo st [] was wl (3 :: rest) none chunks hnl (by simp)]
    rw [List.nil_append, show (3 :: rest).length = rest.length + 1 from rfl,
      innerLoop_interrupt echo rest.length st rest]

theorem c5_interrupt_amended_witness :
    runRead true [([3], none)] ⟨⟨[], [97, 98], 2, 0, 0, 0, 0⟩, 0, -1, []⟩ [] 0 0 =
      .fail [] .terminated ⟨[], [97, 98], 2, 0, 0, 0, 0⟩ [94, 67] :=
  (c5_interrupt_amended true ⟨⟨[], [97, 98], 2, 0, 0, 0, 0⟩, 0, -1, []⟩ [] 0 [] 0 0 rfl).2

/-- Claim C5 counterexample: after typing `"ab"` and hitting Ctrl-C, the
read returns the interruption error with an empty string — but the
reader keeps `unread = "ab"`, and the very next read completes that
retained content into `"ab\n"`: the partial buffer was not discarded. -/
theorem c5_counterexample :
    readStr true ⟨[], [], 0, 0, 0, 0, 0⟩ [([97, 98, 3], none)] =
      .fail [] .terminated ⟨[], [97, 98], 2, 0, 0, 0, 0⟩ [94, 67] ∧
    ([97, 98] : List Nat) ≠ [] ∧
    readStr true ⟨[], [97, 98], 2, 0, 0, 0, 0⟩ [([10], none)] =
      .ok [97, 98, 10] ⟨[[97, 98, 10]], [], 0, 0, 0, 0, 0⟩ [13, 10] := by
  exact ⟨rfl, by decide, rfl⟩

end ClaimInterrupt

section ClaimStreamError

/-- Claim C9 (amended): a read event that delivers zero bytes together
with an error makes the read operation fail immediately, propagating
exactly that error; an error delivered alongside `n > 0` bytes, however,
is discarded (see the counterexample), since the code tests
`n == 0 && err != nil`. -/
theorem c9_stream_error (echo : Bool) (st : St) (p : List Nat) (was wl : Int)
    (rest : List Chunk) (e : GoErr) (hnl : st.newline = -1) :
    runRead echo (([], some e) :: rest) st p was wl = .fail [] e st.rd st.out :=
  runRead_readErr echo st p was wl rest e hnl

theorem c9_stream_error_witness :
    runRead false [([], some (.stream 5))] ⟨⟨[], [], 0, 0, 0, 0, 0⟩, 0, -1, []⟩ [] 0 0 =
      .fail [] (.stream 5) ⟨[], [], 0, 0, 0, 0, 0⟩ [] :=
  c9_stream_error false ⟨⟨[], [], 0, 0, 0, 0, 0⟩, 0, -1, []⟩ [] 0 0 [] (.stream 5) rfl

/-- Claim C9 counterexample: a read event returning one byte `'a'`
together with a stream error does not fail the read — the error is
swallowed and the read completes normally on the next event. -/
theorem c9_counterexample :
    readStr false ⟨[], [], 0, 0, 0, 0, 0⟩ [([97], some (.stream 7)), ([10], none)] =
      .ok [97, 10] ⟨[], [], 0, 0, 0, 0, 0⟩ [13, 10] := rfl

end ClaimStreamError

section ClaimDeleteForward

/-- Claim C4: delete-forward dispatched with the cursor at the end of the
buffer ends the read with the end-of-input error whose returned string is
the current buffer content; otherwise it removes exactly the byte at the
cursor, leaves the cursor offset unchanged, and the dispatch loop
continues. -/
theorem c4_delete_forward (echo : Bool) (st : St) (fuel : Nat) (rest : List Nat)
    (chunks : List Chunk) (was wl : Int) :
    (st.rd.offset = (st.rd.unread.length : Int) →
      deleteNextFn echo st = .err st.rd.unread .eof st ∧
      innerLoop echo (fuel + 1) st (4 :: rest) = .ret st.rd.unread .eof st ∧
      (st.newline = -1 →
        runRead echo ((4 :: rest, none) :: chunks) st [] was wl =
          .fail st.rd.unread .eof st.rd st.out)) ∧
    (0 ≤ st.rd.offset → st.rd.offset < (st.rd.unread.length : Int) →
      deleteNextFn echo st = .ok none { st with rd := { st.rd with
        unread := st.rd.unread.take st.rd.offset.toNat ++
                  st.rd.unread.drop (st.rd.offset.toNat + 1) } } ∧
      innerLoop echo (fuel + 1) st (4 :: rest) =
        innerLoop echo fuel { st with rd := { st.rd with
          unread := st.rd.unread.take st.rd.offset.toNat ++
                    st.rd.unread.drop (st.rd.offset.toNat + 1) } } rest) := by
  constructor
  · intro hend
    refine ⟨by simp [deleteNextFn, hend], innerLoop_delNext_eof echo fuel st rest hend, ?_⟩
    intro hnl
    rw [runRead_chunk echo st [] was wl (4 :: rest) none chunks hnl (by simp)]
    rw [List.nil_append, show (4 :: rest).length = rest.length + 1 from rfl,
      innerLoop_delNext_eof echo rest.length st rest hend]
  · intro h0 h1
    refine ⟨?_, innerLoop_delNext_mid echo fuel st rest h0 h1⟩
    have hne : ¬ st.rd.offset = (st.rd.unread.length : Int) := by omega
    simp [deleteNextFn, hne, And.intro h0 h1]

theorem c4_delete_forward_witness :
    deleteNextFn true ⟨⟨[], [97, 98], 2, 0, 0, 0, 0⟩, 0, -1, []⟩ =
      .err [97, 98] .eof ⟨⟨[], [97, 98], 2, 0, 0, 0, 0⟩, 0, -1, []⟩ ∧
    runRead true [([4], none)] ⟨⟨[], [97, 98], 2, 0, 0, 0, 0⟩, 0, -1, []⟩ [] 0 0 =
      .fail [97, 98] .eof ⟨[], [97, 98], 2, 0, 0, 0, 0⟩ [] ∧
    deleteNextFn true ⟨⟨[], [97, 98], 0, 0, 0, 0, 0⟩, 0, -1, []⟩ =
      .ok none ⟨⟨[], [98], 0, 0, 0, 0, 0⟩, 0, -1, []⟩ := by
  refine ⟨?_, ?_, ?_⟩
  · exact ((c4_delete_forward true ⟨⟨[], [97, 98], 2, 0, 0, 0, 0⟩, 0, -1, []⟩ 0 [] [] 0 0).1
      (by decide)).1
  · exact ((c4_delete_forward true ⟨⟨[], [97, 98], 2, 0, 0, 0, 0⟩, 0, -1, []⟩ 0 [] [] 0 0).1
      (by decide)).2.2 rfl
  · simpa using ((c4_delete_forward true ⟨⟨[], [97, 98], 0, 0, 0, 0, 0⟩, 0, -1, []⟩ 0 [] [] 0 0).2
      (by decide) (by decide)).1

end ClaimDeleteForward

section ClaimInvariant

/-- Invariant/well-formedness of a single handler result. -/
def hresInv : HRes → Prop
  | .ok _ s => Inv s ∧ GoodHist s
  | .err _ _ s => Inv s ∧ GoodHist s
  | .crash => True

theorem applyOp_inv (echo : Bool) (op : EditOp) (st : St)
    (h1 : Inv st) (h2 : GoodHist st) : hresInv (applyOp echo op st) := by
  obtain ⟨h1a, h1b⟩ := h1
  obtain ⟨h2a, h2b⟩ := h2
  cases op <;>
    simp only [applyOp, literalInsert, deleteNextFn, deletePrevFn, startOfLineFn,
      endOfLineFn, transposeFn, upArrowFn, downArrowFn, rightArrowFn, leftArrowFn,
      carriageReturnFn] <;>
    (repeat' split) <;>
    simp_all [hresInv, Inv, GoodHist, List.length_take, List.length_drop,
      List.length_append, List.length_set] <;>
    omega

/-- Claim C3: every editing operation of a read operation — literal
insert, delete-forward, delete-backward, jump-start, jump-end,
transpose, cursor-left, cursor-right, recall-older, recall-newer,
line-terminate — preserves `0 ≤ cursorOffset ≤ len(pendingLine)`; hence
the cursor offset never leaves that range over any sequence of these
operations. -/
theorem c3_cursor_invariant (echo : Bool) (ops : List EditOp) :
    ∀ (st st2 : St), Inv st → GoodHist st →
      runOps echo ops st = some st2 → Inv st2 ∧ GoodHist st2 := by
  induction ops with
  | nil =>
    intro st st2 h1 h2 hrun
    rw [runOps] at hrun
    cases hrun
    exact ⟨h1, h2⟩
  | cons op ops ih =>
    intro st st2 h1 h2 hrun
    rw [runOps] at hrun
    have hai := applyOp_inv echo op st h1 h2
    cases hres : applyOp echo op st with
    | ok x st3 =>
      rw [hres] at hrun hai
      exact ih st3 st2 hai.1 hai.2 hrun
    | err r e st3 =>
      rw [hres] at hrun hai
      cases hrun
      exact ⟨hai.1, hai.2⟩
    | crash =>
      rw [hres] at hrun
      cases hrun

theorem c3_cursor_invariant_witness :
    Inv ⟨⟨[], [98], 0, 0, 0, 0, 0⟩, 0, -1, []⟩ ∧
    GoodHist ⟨⟨[], [98], 0, 0, 0, 0, 0⟩, 0, -1, []⟩ := by
  have hrun : runOps true [.literal 97, .literal 98, .curLeft, .delPrev]
      ⟨⟨[], [], 0, 0, 0, 0, 0⟩, 0, -1, []⟩ =
      some ⟨⟨[], [98], 0, 0, 0, 0, 0⟩, 0, -1, []⟩ := rfl
  exact c3_cursor_invariant true [.literal 97, .literal 98, .curLeft, .delPrev]
    ⟨⟨[], [], 0, 0, 0, 0, 0⟩, 0, -1, []⟩ ⟨⟨[], [98], 0, 0, 0, 0, 0⟩, 0, -1, []⟩
    ⟨by decide, by decide⟩ ⟨by decide, by decide⟩ hrun

end ClaimInvariant

section ClaimRecall

theorem runOps_older :
    ∀ (m : Nat) (tail : List EditOp) (st : St),
      (∀ l ∈ st.rd.h, l ≠ []) → 0 ≤ st.pick →
      st.pick + (m : Int) ≤ (st.rd.h.length : Int) →
      ∃ (u : List Nat) (o : Int),
        runOps true (List.replicate m .recallOlder ++ tail) st =
          runOps true tail
            ⟨⟨st.rd.h, u, o, st.rd.row, st.rd.col, st.rd.atR, st.rd.atC⟩,
              st.pick + (m : Int), st.newline, st.out⟩
  | 0, tail, st, hh, hp, hm => by
    refine ⟨st.rd.unread, st.rd.offset, ?_⟩
    simp
  | m + 1, tail, st, hh, hp, hm => by
    rw [List.replicate_succ, List.cons_append, runOps]
    have hlt : st.pick < (st.rd.h.length : Int) := by push_cast at hm; omega
    have hidx : st.rd.h.length - 1 - st.pick.toNat < st.rd.h.length := by omega
    have hmem : st.rd.h.getD (st.rd.h.length - 1 - st.pick.toNat) [] ∈ st.rd.h := by
      rw [List.getD_eq_getElem st.rd.h [] hidx]
      exact List.getElem_mem hidx
    have hne : st.rd.h.getD (st.rd.h.length - 1 - st.pick.toNat) [] ≠ [] := hh _ hmem
    have hstep : applyOp true .recallOlder st = .ok none
        ⟨⟨st.rd.h,
          (st.rd.h.getD (st.rd.h.length - 1 - st.pick.toNat) []).take
            ((st.rd.h.getD (st.rd.h.length - 1 - st.pick.toNat) []).length - 1),
          (((st.rd.h.getD (st.rd.h.length - 1 - st.pick.toNat) []).take
            ((st.rd.h.getD (st.rd.h.length - 1 - st.pick.toNat) []).length - 1)).length : Int),
          st.rd.row, st.rd.col, st.rd.atR, st.rd.atC⟩,
          st.pick + 1, st.newline, st.out⟩ := by
      simp only [applyOp, upArrowFn]
      rw [if_pos (And.intro trivial hlt), if_pos hp]
      rw [if_neg (fun hcon => hne (List.length_eq_zero.mp hcon))]
    rw [hstep]
    obtain ⟨u, o, hrec⟩ := runOps_older m tail
      ⟨⟨st.rd.h,
        (st.rd.h.getD (st.rd.h.length - 1 - st.pick.toNat) []).take
          ((st.rd.h.getD (st.rd.h.length - 1 - st.pick.toNat) []).length - 1),
        (((st.rd.h.getD (st.rd.h.length - 1 - st.pick.toNat) []).take
          ((st.rd.h.getD (st.rd.h.length - 1 - st.pick.toNat) []).length - 1)).length : Int),
        st.rd.row, st.rd.col, st.rd.atR, st.rd.atC⟩,
        st.pick + 1, st.newline, st.out⟩
      (by simpa using hh)
      (show (0 : Int) ≤ st.pick + 1 from by omega)
      (show st.pick + 1 + (m : Int) ≤ (st.rd.h.length : Int) from by omega)
    refine ⟨u, o, ?_⟩
    rw [show st.pick + ((m + 1 : Nat) : Int) = st.pick + 1 + (m : Int) from by omega]
    exact hrec

theorem runOps_newer :
    ∀ (q : Nat) (st : St),
      (∀ l ∈ st.rd.h, l ≠ []) →
      st.pick = (q : Int) + 1 →
      (q : Int) + 1 ≤ (st.rd.h.length : Int) →
      runOps true (List.replicate (q + 1) .recallNewer) st =
        some ⟨⟨st.rd.h, [], 0, st.rd.row, st.rd.col, st.rd.atR, st.rd.atC⟩,
          0, st.newline, st.out⟩
  | 0, st, hh, hp, hq => by
    rw [List.replicate_succ, List.replicate_zero, runOps]
    have hstep : applyOp true .recallNewer st = .ok none
        ⟨⟨st.rd.h, [], 0, st.rd.row, st.rd.col, st.rd.atR, st.rd.atC⟩,
          0, st.newline, st.out⟩ := by
      simp only [applyOp, downArrowFn, Bool.not_true, Bool.false_eq_true, if_false]
      rw [if_neg (show ¬ (0 : Int) ≤ st.pick - 2 from by omega)]
    rw [hstep]
    rfl
  | q + 1, st, hh, hp, hq => by
    rw [List.replicate_succ, runOps]
    have hd0 : (0 : Int) ≤ st.pick - 2 := by omega
    have hdlt : st.pick - 2 < (st.rd.h.length : Int) := by omega
    have hidx : st.rd.h.length - 1 - (st.pick - 2).toNat < st.rd.h.length := by omega
    have hmem : st.rd.h.getD (st.rd.h.length - 1 - (st.pick - 2).toNat) [] ∈ st.rd.h := by
      rw [List.getD_eq_getElem st.rd.h [] hidx]
      exact List.getElem_mem hidx
    have hne : st.rd.h.getD (st.rd.h.length - 1 - (st.pick - 2).toNat) [] ≠ [] := hh _ hmem
    have hstep : applyOp true .recallNewer st = .ok none
        ⟨⟨st.rd.h,
          (st.rd.h.getD (st.rd.h.length - 1 - (st.pick - 2).toNat) []).take
            ((st.rd.h.getD (st.rd.h.length - 1 - (st.pick - 2).toNat) []).length - 1),
          (((st.rd.h.getD (st.rd.h.length - 1 - (st.pick - 2).toNat) []).take
            ((st.rd.h.getD (st.rd.h.length - 1 - (st.pick - 2).toNat) []).length - 1)).length : Int),
          st.rd.row, st.rd.col, st.rd.atR, st.rd.atC⟩,
          st.pick - 1, st.newline, st.out⟩ := by
      simp only [applyOp, downArrowFn, Bool.not_true, Bool.false_eq_true, if_false]
      rw [if_pos hd0, if_pos hdlt]
      rw [if_neg (fun hcon => hne (List.length_eq_zero.mp hcon))]
    rw [hstep]
    have hrec := runOps_newer q
      ⟨⟨st.rd.h,
        (st.rd.h.getD (st.rd.h.length - 1 - (st.pick - 2).toNat) []).take
          ((st.rd.h.getD (st.rd.h.length - 1 - (st.pick - 2).toNat) []).length - 1),
        (((st.rd.h.getD (st.rd.h.length - 1 - (st.pick - 2).toNat) []).take
          ((st.rd.h.getD (st.rd.h.length - 1 - (st.pick - 2).toNat) []).length - 1)).length : Int),
        st.rd.row, st.rd.col, st.rd.atR, st.rd.atC⟩,
        st.pick - 1, st.newline, st.out⟩
      (by simpa using hh)
      (show st.pick - 1 = (q : Int) + 1 from by omega)
      (show (q : Int) + 1 ≤ (st.rd.h.length : Int) from by omega)
    exact hrec

/-- Claim C2 (amended): during one echoed read with a non-empty history,
recall-older `k` times followed by recall-newer `k` times does not
restore the original in-progress content: it clears the pending line to
empty, resets the cursor to `0` and the recall depth to `0` (the final
recall-newer takes the `dPick < 0` branch that empties the buffer). -/
theorem c2_recall_round_trip (st : St) (k : Nat)
    (hh : ∀ l ∈ st.rd.h, l ≠ []) (hp : st.pick = 0) (hk : 1 ≤ k)
    (hlen : (k : Int) ≤ (st.rd.h.length : Int)) :
    runOps true (List.replicate k .recallOlder ++ List.replicate k .recallNewer) st =
      some ⟨⟨st.rd.h, [], 0, st.rd.row, st.rd.col, st.rd.atR, st.rd.atC⟩,
        0, st.newline, st.out⟩ := by
  obtain ⟨u, o, hup⟩ :=
    runOps_older k (List.replicate k .recallNewer) st hh (by omega) (by omega)
  rw [hup]
  obtain ⟨q, rfl⟩ : ∃ q, k = q + 1 := ⟨k - 1, by omega⟩
  rw [runOps_newer q
    ⟨⟨st.rd.h, u, o, st.rd.row, st.rd.col, st.rd.atR, st.rd.atC⟩,
      st.pick + ((q + 1 : Nat) : Int), st.newline, st.out⟩
    (by simpa using hh)
    (show st.pick + ((q + 1 : Nat) : Int) = (q : Int) + 1 from by omega)
    (show (q : Int) + 1 ≤ (st.rd.h.length : Int) from by omega)]

theorem c2_recall_round_trip_witness :
    runOps true (List.replicate 1 .recallOlder ++ List.replicate 1 .recallNewer)
      ⟨⟨[[97, 10]], [120], 1, 0, 0, 0, 0⟩, 0, -1, []⟩ =
      some ⟨⟨[[97, 10]], [], 0, 0, 0, 0, 0⟩, 0, -1, []⟩ := by
  simpa using c2_recall_round_trip ⟨⟨[[97, 10]], [120], 1, 0, 0, 0, 0⟩, 0, -1, []⟩ 1
    (by decide) rfl (by decide) (by decide)

/-- Claim C2 counterexample: with history `["a\n"]` and in-progress
content `"x"`, recall-older then recall-newer ends with an empty pending
line, not with `"x"`. -/
theorem c2_counterexample :
    runOps true [.recallOlder, .recallNewer]
      ⟨⟨[[97, 10]], [120], 1, 0, 0, 0, 0⟩, 0, -1, []⟩ =
      some ⟨⟨[[97, 10]], [], 0, 0, 0, 0, 0⟩, 0, -1, []⟩ ∧
    ([] : List Nat) ≠ [120] := by
  exact ⟨rfl, by decide⟩

end ClaimRecall

section ClaimSilent

theorem presH_table : ∀ e ∈ specialsTable, ∀ (echo : Bool) (st : St),
    presH st (e.fn echo st) := by
  intro e he echo st
  simp only [specialsTable, List.mem_cons, List.not_mem_nil, or_false] at he
  rcases he with rfl | rfl | rfl | rfl | rfl | rfl | rfl | rfl | rfl | rfl <;>
    simp only [deleteNextFn, deletePrevFn, startOfLineFn, endOfLineFn, transposeFn,
      upArrowFn, downArrowFn, rightArrowFn, leftArrowFn, carriageReturnFn] <;>
    (repeat' split) <;>
    simp [presH]

theorem literalInsert_presH (b : List Nat) (st : St) : presH st (literalInsert b st) := by
  unfold literalInsert
  split <;> simp [presH]

theorem scanCodes_presH (fn : Bool → St → HRes) (echo : Bool) (st : St) (p : List Nat)
    (hfn : ∀ (e : Bool) (s : St), presH s (fn e s)) :
    ∀ (codes : List (List Nat)) (prt : Bool) (hres : HRes) (clen : Nat) (prt2 : Bool),
      scanCodes fn echo st p codes prt = (some (hres, clen), prt2) → presH st hres
  | [], prt, hres, clen, prt2, heq => by simp [scanCodes] at heq
  | code :: cs, prt, hres, clen, prt2, heq => by
    rw [scanCodes] at heq
    split at heq
    · exact scanCodes_presH fn echo st p hfn cs _ hres clen prt2 heq
    · split at heq
      · simp only [Prod.mk.injEq, Option.some.injEq] at heq
        obtain ⟨⟨hh1, -⟩, -⟩ := heq
        rw [← hh1]
        exact hfn echo st
      · exact scanCodes_presH fn echo st p hfn cs _ hres clen prt2 heq

theorem scanSp_presH (echo : Bool) (st : St) (p : List Nat) :
    ∀ (es : List SpEntry), (∀ e ∈ es, ∀ (b : Bool) (s : St), presH s (e.fn b s)) →
    ∀ (prt : Bool) (hres : HRes) (clen : Nat) (prt2 : Bool),
      scanSp echo st p es prt = (some (hres, clen), prt2) → presH st hres
  | [], _, prt, hres, clen, prt2, heq => by simp [scanSp] at heq
  | e :: es, hall, prt, hres, clen, prt2, heq => by
    rw [scanSp] at heq
    rcases hsc : scanCodes e.fn echo st p e.codes prt with ⟨o, prtx⟩
    rw [hsc] at heq
    cases o with
    | some hit =>
      simp only [Prod.mk.injEq, Option.some.injEq] at heq
      obtain ⟨hh1, -⟩ := heq
      rw [hh1] at hsc
      exact scanCodes_presH e.fn echo st p (hall e (List.mem_cons_self e es))
        e.codes prt hres clen prtx hsc
    | none =>
      exact scanSp_presH echo st p es
        (fun x hx => hall x (List.mem_cons_of_mem e hx)) prtx hres clen prt2
        (by simpa using heq)

/-- The reader history preserved by an inner-loop outcome. -/
def innerPresH (st : St) : InnerOut → Prop
  | .done s _ => s.rd.h = st.rd.h
  | .ret _ _ s => s.rd.h = st.rd.h
  | .crash => True

theorem innerPresH_trans {st st2 : St} (h : st2.rd.h = st.rd.h) :
    ∀ {r : InnerOut}, innerPresH st2 r → innerPresH st r := by
  intro r hr
  cases r <;> simp only [innerPresH] at hr ⊢ <;> exact hr.trans h

/-- The literal-insert tail of the loop preserves the history, whatever
state the matched handler produced. -/
theorem literalTail_presH (echo : Bool) (fuel : Nat) (st2 stBase : St)
    (hb : st2.rd.h = stBase.rd.h) (x : List Nat) (pt : List Nat)
    (hrec : ∀ (s : St) (q : List Nat), innerPresH s (innerLoop echo fuel s q)) :
    innerPresH stBase
      (match literalInsert x st2 with
        | HRes.ok _ st3 => innerLoop echo fuel st3 pt
        | _ => InnerOut.crash) := by
  cases hli : literalInsert x st2 with
  | ok y st3 =>
    have hlh := literalInsert_presH x st2
    rw [hli] at hlh
    exact innerPresH_trans (hlh.trans hb) (hrec st3 pt)
  | err r e st3 => exact trivial
  | crash => exact trivial

/-- The cursor-reply-or-literal tail of the loop preserves the history. -/
theorem tail_presH (echo : Bool) (fuel : Nat) (st2 stBase : St)
    (hb : st2.rd.h = stBase.rd.h) (x : List Nat) (b : Nat) (pt : List Nat)
    (hrec : ∀ (s : St) (q : List Nat), innerPresH s (innerLoop echo fuel s q)) :
    innerPresH stBase
      (if begins (b :: pt) [27, 91] = true then
        match cursorReply ((b :: pt).drop 2) with
        | some (row, col, mlen) =>
          innerLoop echo fuel
            { st2 with rd := { st2.rd with atR := (row : Int), atC := (col : Int) } }
            ((b :: pt).drop (2 + mlen))
        | none =>
          match literalInsert x st2 with
          | HRes.ok _ st3 => innerLoop echo fuel st3 pt
          | _ => InnerOut.crash
      else
        match literalInsert x st2 with
        | HRes.ok _ st3 => innerLoop echo fuel st3 pt
        | _ => InnerOut.crash) := by
  split
  · rcases hcr : cursorReply ((b :: pt).drop 2) with - | ⟨row, col, mlen⟩
    · exact literalTail_presH echo fuel st2 stBase hb x pt hrec
    · exact innerPresH_trans hb (hrec _ _)
  · exact literalTail_presH echo fuel st2 stBase hb x pt hrec

theorem innerLoop_presH (echo : Bool) :
    ∀ (fuel : Nat) (st : St) (p : List Nat), innerPresH st (innerLoop echo fuel st p)
  | fuel, st, [] => by cases fuel <;> exact rfl
  | 0, st, _ :: _ => rfl
  | fuel + 1, st, b :: pt => by
    have hrec : ∀ (s : St) (q : List Nat), innerPresH s (innerLoop echo fuel s q) :=
      fun s q => innerLoop_presH echo fuel s q
    by_cases hb3 : b = 3
    · subst hb3
      exact rfl
    · simp only [innerLoop, if_neg hb3]
      rcases hscan : scanSp echo st (b :: pt) specialsTable false with ⟨o, prt⟩
      cases o with
      | none =>
        cases prt with
        | true => exact rfl
        | false => exact tail_presH echo fuel st st rfl [b] b pt hrec
      | some hit =>
        rcases hit with ⟨hres, clen⟩
        have hpres : presH st hres :=
          scanSp_presH echo st (b :: pt) specialsTable presH_table false hres clen prt hscan
        cases hres with
        | err r e st2 => exact hpres
        | crash => exact trivial
        | ok x st2 =>
          cases x with
          | none => exact innerPresH_trans hpres (hrec st2 ((b :: pt).drop clen))
          | some xs =>
            cases prt with
            | true => exact hpres
            | false => exact tail_presH echo fuel st2 st hpres xs b pt hrec

/-- The reader history preserved by a read result. -/
def resultPresH (st : St) : ReadResult → Prop
  | .ok _ r _ => r.h = st.rd.h
  | .fail _ _ r _ => r.h = st.rd.h
  | .blocked r _ => r.h = st.rd.h
  | .crash => True

theorem resultPresH_trans {st st2 : St} (h : st2.rd.h = st.rd.h) :
    ∀ {r : ReadResult}, resultPresH st2 r → resultPresH st r := by
  intro r hr
  cases r <;> simp only [resultPresH] at hr ⊢ <;> exact hr.trans h

theorem runRead_presH_false :
    ∀ (chunks : List Chunk) (st : St) (p : List Nat) (was wl : Int),
      resultPresH st (runRead false chunks st p was wl)
  | [], st, p, was, wl => by
    by_cases hnl : st.newline = -1
    · rw [runRead_blocked false st p was wl hnl]
      exact rfl
    · by_cases hg : 0 ≤ st.newline ∧ st.newline + 1 ≤ (st.rd.unread.length : Int)
      · rw [runRead_done false [] st p was wl hnl hg]
        exact rfl
      · rw [runRead_complete_crash false [] st p was wl hnl hg]
        exact trivial
  | (bs, er) :: rest, st, p, was, wl => by
    by_cases hnl : st.newline = -1
    · by_cases hbe : (bs.isEmpty && er.isSome) = true
      · cases bs with
        | cons b bs2 => simp at hbe
        | nil =>
          cases er with
          | none => simp at hbe
          | some e =>
            rw [runRead_readErr false st p was wl rest e hnl]
            exact rfl
      · rw [runRead_chunk false st p was wl bs er rest hnl (by simpa using hbe)]
        have hih := innerLoop_presH false (p ++ bs).length st (p ++ bs)
        rcases hin : innerLoop false (p ++ bs).length st (p ++ bs)
          with ⟨st2, p2⟩ | ⟨r, e, st2⟩ | -
        · rw [hin] at hih
          change resultPresH st (if st2.newline = -1 ∧ false = true then _ else _)
          rw [if_neg (by simp)]
          exact resultPresH_trans hih (runRead_presH_false rest st2 p2 was wl)
        · rw [hin] at hih
          exact hih
        · exact trivial
    · by_cases hg : 0 ≤ st.newline ∧ st.newline + 1 ≤ (st.rd.unread.length : Int)
      · rw [runRead_done false ((bs, er) :: rest) st p was wl hnl hg]
        exact rfl
      · rw [runRead_complete_crash false ((bs, er) :: rest) st p was wl hnl hg]
        exact trivial

/-- Claim C6: a silent (password) read never appends to history and
never consults it: the reader delivered by `ReadPassword` carries the
same history, `History` answers identically before and after the call,
and the recall handlers dispatched while not echoing leave the pending
line, the cursor and the recall depth untouched. -/
theorem c6_silent_frame :
    (∀ (r : Reader) (input : List Chunk) (r2 : Reader),
      resultReader (ReadPasswordGo r input) = some r2 →
      r2.h = r.h ∧ ∀ n : Int, History r2.h n = History r.h n) ∧
    (∀ st : St, upArrowFn false st = .ok none st ∧ downArrowFn false st = .ok none st) := by
  constructor
  · intro r input r2 hres
    have h1 := runRead_presH_false input ⟨r, 0, idxNewline r.unread, []⟩ [] 0 0
    unfold ReadPasswordGo readStr at hres
    have hh : r2.h = r.h := by
      rcases hrr : runRead false input ⟨r, 0, idxNewline r.unread, []⟩ [] 0 0
        with ⟨l, rr, o⟩ | ⟨a, e, rr, o⟩ | ⟨rr, o⟩ | -
      all_goals rw [hrr] at hres h1
      · simp only [resultReader, Option.some.injEq] at hres
        rw [← hres]
        exact h1
      · simp only [resultReader, Option.some.injEq] at hres
        rw [← hres]
        exact h1
      · simp only [resultReader, Option.some.injEq] at hres
        rw [← hres]
        exact h1
      · simp [resultReader] at hres
    exact ⟨hh, fun n => by rw [hh]⟩
  · intro st
    constructor
    · simp [upArrowFn]
    · simp [downArrowFn]

theorem c6_silent_frame_witness :
    (⟨[[97, 10]], [], 0, 0, 0, 0, 0⟩ : Reader).h = (⟨[[97, 10]], [], 0, 0, 0, 0, 0⟩ : Reader).h ∧
    ∀ n : Int, History (⟨[[97, 10]], [], 0, 0, 0, 0, 0⟩ : Reader).h n =
      History (⟨[[97, 10]], [], 0, 0, 0, 0, 0⟩ : Reader).h n :=
  c6_silent_frame.1 ⟨[[97, 10]], [], 0, 0, 0, 0, 0⟩ [([104, 10], none)]
    ⟨[[97, 10]], [], 0, 0, 0, 0, 0⟩ rfl

end ClaimSilent

end Lined
